import Mathlib

/-!
Verification of the symbolic tracer in `torch/fx/symbolic_trace.py`.

The development shallowly embeds the tracer: a Python `nn.Module` tree is a
`Module` value whose object identity is an explicit `oid : Nat`; the tracer's
mutable state (the graph under construction, the root module whose attribute
dictionary can be extended by `setattr`, and the set of modules whose real
`forward` logic has run) is a `St` record threaded explicitly.  The Python
call stack inspected by `module_call_wrapper` is modelled as the list of
enclosing `module_call_wrapper` frames, nearest first, each carrying the
`mod` local (an object identity) and whether the `disable_intercept` local
was set.  Execution is fuelled: running out of fuel is a distinguished error,
so theorems about terminating runs are stated under a success hypothesis.
-/

namespace SymTrace

/-- Object identity of a Python value (the `is` relation compares these). -/
abbrev ObjId := Nat

/-- Runtime values flowing through a trace, as discriminated by the
`isinstance` checks in `Tracer.create_arg`: a `Proxy` wrapping a graph node,
a tensor-like object (whose `isParam` flag records whether it is an instance
of the subclass `torch.nn.Parameter`), the literal `None`, or a number. -/
inductive Value where
  | proxy (idx : Nat)
  | tensor (oid : ObjId) (isParam : Bool)
  | vnone
  | num (n : Int)
deriving Repr, DecidableEq

/-- Normalized node arguments: a reference to an existing node or a literal. -/
inductive Arg where
  | node (idx : Nat)
  | lit (v : Value)
deriving Repr, DecidableEq

/-- A graph node: opcode kind (`placeholder`, `get_param`, `call_module`,
`output`), target string, and normalized positional arguments. -/
structure Node where
  kind : String
  target : String
  args : List Arg
deriving Repr, DecidableEq

/-- An enclosing `module_call_wrapper` stack frame, nearest first: the object
identity bound to the local `mod`, and whether the local `disable_intercept`
had been set (absent locals read as `False` via `f_locals.get`). -/
abbrev Frame := ObjId × Bool

/-- A call performed by a module's `forward` body: the invoked sub-module's
object identity and the positional arguments passed to it. -/
abbrev BCall := ObjId × List Value

mutual

/-- A Python `nn.Module` object: its identity, the `__module__` namespace of
its class, whether it is an instance of `torch.nn.Sequential`, its instance
`__dict__` entries holding tensor-like values (name, object identity), its
directly registered parameters (name, object identity), its named children,
and the sequence of sub-module invocations its real `forward` performs. -/
inductive Module where
  | mk (oid : ObjId) (ns : String) (isSeq : Bool)
      (attrs : List (String × ObjId)) (params : List (String × ObjId))
      (children : Children) (body : List BCall) : Module

/-- Named children of a module, in registration order. -/
inductive Children where
  | nil : Children
  | cons (name : String) (m : Module) (rest : Children) : Children

end

def Module.oid : Module → ObjId
  | .mk o _ _ _ _ _ _ => o

def Module.ns : Module → String
  | .mk _ n _ _ _ _ _ => n

def Module.isSeq : Module → Bool
  | .mk _ _ s _ _ _ _ => s

def Module.attrs : Module → List (String × ObjId)
  | .mk _ _ _ a _ _ _ => a

def Module.params : Module → List (String × ObjId)
  | .mk _ _ _ _ p _ _ => p

def Module.children : Module → Children
  | .mk _ _ _ _ _ c _ => c

def Module.body : Module → List BCall
  | .mk _ _ _ _ _ _ b => b

/-- Dotted-path concatenation used by `named_modules`/`named_parameters`:
an empty prefix contributes no dot. -/
def joinName (pfx n : String) : String :=
  if pfx = "" then n else pfx ++ "." ++ n

mutual

/-- Modelled from the spec: `torch.nn.Module.named_modules` (the root's
named sub-component tree is an external collaborator).  Pre-order listing of
`(dotted qualified path, module)` pairs, the module itself first under the
given prefix, then each named child's subtree. -/
def namedModulesAux (pfx : String) : Module → List (String × Module)
  | .mk o n s a p cs b =>
    (pfx, .mk o n s a p cs b) :: namedModulesChildren pfx cs

/-- Modelled from the spec: the children part of `named_modules`. -/
def namedModulesChildren (pfx : String) : Children → List (String × Module)
  | .nil => []
  | .cons n c rest =>
    namedModulesAux (joinName pfx n) c ++ namedModulesChildren pfx rest

end

/-- Modelled from the spec: `root.named_modules()` starts from prefix `""`. -/
def namedModules (root : Module) : List (String × Module) :=
  namedModulesAux "" root

/-- Modelled from the spec: `torch.nn.Module.named_parameters`, the root's
flat identity-addressable mapping from dotted names to learnable parameters,
module pre-order, each module's direct parameters under its prefix. -/
def namedParameters (root : Module) : List (String × ObjId) :=
  ((namedModules root).map
    (fun q => q.2.params.map (fun r => (joinName q.1 r.1, r.2)))).flatten

/-- Embedding of `_find_module` (symbolic_trace.py:13-17): iterate
`root.named_modules()` and return the name of the first entry whose module
is identical (`is`) to the queried one; `None` means the `NameError`
`module is not installed as a submodule` is raised.  The model also returns
the resolved module itself, which in Python is the argument `m`. -/
def findModuleWithName (root : Module) (oid : ObjId) : Option (String × Module) :=
  (namedModules root).find? (fun q => q.2.oid == oid)

/-- Python's `str.startswith`, computed on the character lists. -/
def pyStartsWith (s p : String) : Bool :=
  p.data.isPrefixOf s.data

/-- Embedding of `Tracer.is_leaf_module` (symbolic_trace.py:120-131):
`m.__module__.startswith('torch.nn') and not isinstance(m, torch.nn.Sequential)`. -/
def isLeaf (m : Module) : Bool :=
  pyStartsWith m.ns "torch.nn" && !m.isSeq

/-- First identity match in an association list of `(name, object)` pairs. -/
def findByIdent (l : List (String × ObjId)) (oid : ObjId) : Option String :=
  (l.find? (fun q => q.2 == oid)).map (fun q => q.1)

mutual

/-- Embedding of the inner `search_for_tensor` (symbolic_trace.py:87-101):
look for an identical (`is`) tensor among the module's own `__dict__` values
first; if absent, recurse into the named children in order, first match
winning, prepending the child's name to the found path. -/
def searchForTensor (a : ObjId) : Module → Option (List String)
  | .mk _ _ _ attrs _ cs _ =>
    match findByIdent attrs a with
    | some n => some [n]
    | none => searchChildren a cs

/-- Embedding of the `named_children` recursion inside `search_for_tensor`. -/
def searchChildren (a : ObjId) : Children → Option (List String)
  | .nil => none
  | .cons n c rest =>
    match searchForTensor a c with
    | some atoms => some (n :: atoms)
    | none => searchChildren a rest

end

/-- Names of a module's direct children. -/
def Children.names : Children → List String
  | .nil => []
  | .cons n _ rest => n :: rest.names

/-- Modelled from the spec: `hasattr(self.root, name)` on a torch module
consults the instance `__dict__` as well as the registered parameters and
sub-modules (via `Module.__getattr__`). -/
def hasattrB (m : Module) (name : String) : Bool :=
  (m.attrs.map Prod.fst).contains name || (m.params.map Prod.fst).contains name
    || m.children.names.contains name

/-- Modelled from the spec: `setattr(self.root, name, a)` stores a new entry
at the end of the instance `__dict__`. -/
def addRootAttr (m : Module) (name : String) (a : ObjId) : Module :=
  match m with
  | .mk o n s at' p cs b => .mk o n s (at' ++ [(name, a)]) p cs b

/-- Python's `'.'.join`: concatenate the atoms with a dot between each pair. -/
def joinDots : List String → String
  | [] => ""
  | [a] => a
  | a :: rest => a ++ "." ++ joinDots rest

/-- Rendering of the f-string `f'__tensor_constant{i}'`. -/
def tcName (i : Nat) : String :=
  "__tensor_constant" ++ Nat.repr i

/-- Embedding of the `while True` loop at symbolic_trace.py:109-114: starting
from index `start`, return the first index whose generated name is not an
attribute of the root; fuelled, returning the current index on exhaustion. -/
def freshIdxAux (root : Module) : Nat → Nat → Nat
  | 0, i => i
  | fuel + 1, i => if hasattrB root (tcName i) then freshIdxAux root fuel (i + 1) else i

/-- Upper bound on how many attribute names the root exposes to `hasattr`. -/
def attrBound (root : Module) : Nat :=
  root.attrs.length + root.params.length + root.children.names.length

/-- Fresh index chosen for a synthesized tensor-constant attribute: the fuel
`attrBound root + 1` suffices because at most `attrBound root` distinct names
exist and the generated names are pairwise distinct. -/
def freshIdx (root : Module) : Nat :=
  freshIdxAux root (attrBound root + 1) 0

/-- Error conditions surfaced by the tracer.  `nameErrorModule` is the
`NameError('module is not installed as a submodule')` of `_find_module`,
`nameErrorParameter` the `NameError('parameter is not a member of this
module')` of `Tracer.create_arg`, `assertionError` the failed
`assert isinstance(fn, FunctionType)` in `Tracer.trace`, `fuelOut` the
model-level marker for a run that did not terminate within its fuel. -/
inductive Err where
  | nameErrorModule
  | nameErrorParameter
  | assertionError
  | fuelOut
deriving Repr, DecidableEq

/-- Mutable state of one trace: the root module (whose `__dict__` grows when
a constant tensor is stowed away), the nodes of `self.graph` in creation
order, and the identities of modules whose real `forward` body has started
executing (used to state that a leaf dispatch does not run the real logic). -/
structure St where
  root : Module
  nodes : List Node
  ran : List ObjId

/-- Modelled from the spec: `Graph`/`create_node` (graph.py is an external
collaborator; section 4.1: append-only store, nodes appended in creation
order).  Returns the index of the new node, which identifies it. -/
def createNode (st : St) (kind target : String) (args : List Arg) : Nat × St :=
  (st.nodes.length, { st with nodes := st.nodes ++ [⟨kind, target, args⟩] })

/-- Embedding of `Tracer.create_arg` (symbolic_trace.py:68-118).  The
`isinstance(a, torch.nn.Parameter)` branch comes first: first identity match
among `self.root.named_parameters()` yields a `get_param` node, otherwise
`NameError`.  The `isinstance(a, torch.Tensor)` branch then searches the
module hierarchy with `search_for_tensor`; a falsy qualified name (`None`,
or the empty string Python treats as falsy) triggers synthesis of a fresh
`__tensor_constant{i}` attribute on the root.  Remaining values fall through
to the base tracer, modelled from the spec (section 4.5): a symbolic value
becomes its node reference, a literal stays itself. -/
def create_arg (st : St) (v : Value) : Except Err Arg × St :=
  match v with
  | .tensor oid isParam =>
    if isParam then
      match findByIdent (namedParameters st.root) oid with
      | some n =>
        let (i, st') := createNode st "get_param" n []
        (.ok (.node i), st')
      | none => (.error .nameErrorParameter, st)
    else
      let qopt := (searchForTensor oid st.root).map joinDots
      let qst : String × St :=
        match qopt with
        | some q => if q = "" then (tcName (freshIdx st.root),
            { st with root := addRootAttr st.root (tcName (freshIdx st.root)) oid })
          else (q, st)
        | none => (tcName (freshIdx st.root),
            { st with root := addRootAttr st.root (tcName (freshIdx st.root)) oid })
      let (i, st') := createNode qst.2 "get_param" qst.1 []
      (.ok (.node i), st')
  | .proxy i => (.ok (.node i), st)
  | .vnone => (.ok (.lit .vnone), st)
  | .num n => (.ok (.lit (.num n)), st)

/-- Normalization of a list of positional arguments, left to right, stopping
at the first error (Python raises out of the loop, keeping the nodes already
created). -/
def createArgs (st : St) : List Value → Except Err (List Arg) × St
  | [] => (.ok [], st)
  | v :: vs =>
    match create_arg st v with
    | (.error e, st') => (.error e, st')
    | (.ok a, st') =>
      match createArgs st' vs with
      | (.error e, st'') => (.error e, st'')
      | (.ok as', st'') => (.ok (a :: as'), st'')

/-- Modelled from the spec: `torch.fx.proxy._create_proxy` (proxy.py is an
external collaborator; section 4.4: normalize the arguments, append one node
of the given kind, and return a fresh symbolic value wrapping that node). -/
def createProxy (st : St) (kind target : String) (args : List Value) :
    Except Err Value × St :=
  match createArgs st args with
  | (.error e, st') => (.error e, st')
  | (.ok nargs, st') =>
    let (i, st'') := createNode st' kind target nargs
    (.ok (.proxy i), st'')

/-- Embedding of the stack snooping at symbolic_trace.py:163-170: walk up to
the nearest enclosing `module_call_wrapper` frame; bypass interception
exactly when that frame's `mod` local is the identical module instance and
its `disable_intercept` local was set; any other wrapper frame breaks the
walk.  The model's stack holds only the wrapper frames, nearest first. -/
def bypassOn : List Frame → ObjId → Bool
  | [], _ => false
  | f :: _, oid => f.1 == oid && f.2

mutual

/-- Embedding of `module_call_wrapper` combined with the default
`Tracer.call_module` (symbolic_trace.py:50-66 and 155-173).  The wrapper
first resolves the invoked module by identity via `_find_module`; then the
re-entrancy guard either routes to the preserved original
`nn.Module.__call__` (running the real `forward` body, whose nested
invocations re-enter the wrapper below a frame whose `disable_intercept`
was never set), or sets `disable_intercept` and dispatches to `call_module`:
a leaf module yields one `call_module` proxy without running its logic,
a non-leaf module is re-invoked through the patched `__call__`, which
re-enters this wrapper under the now-marked frame. -/
def wrapperRun : Nat → Module → List Frame → ObjId → List Value → St →
    Except Err Value × St
  | 0, _, _, _, _, st => (.error .fuelOut, st)
  | fuel + 1, root, stack, oid, args, st =>
    match findModuleWithName root oid with
    | none => (.error .nameErrorModule, st)
    | some (target, m) =>
      if bypassOn stack oid then
        let st1 : St := { st with ran := st.ran ++ [oid] }
        match runBody fuel root ((oid, false) :: stack) m.body st1 with
        | (.error e, st2) => (.error e, st2)
        | (.ok _, st2) => (.ok .vnone, st2)
      else
        if isLeaf m then createProxy st "call_module" target args
        else wrapperRun fuel root ((oid, true) :: stack) oid args st

/-- Sequential execution of a `forward` body's sub-module invocations, each
re-entering the patched `nn.Module.__call__`.  Fuel decreases along the
sequence as well, purely as a structural-recursion device. -/
def runBody : Nat → Module → List Frame → List BCall → St → Except Err Unit × St
  | _, _, _, [], st => (.ok (), st)
  | 0, _, _, _ :: _, st => (.error .fuelOut, st)
  | fuel + 1, root, stack, c :: cs, st =>
    match wrapperRun fuel root stack c.1 c.2 st with
    | (.error e, st') => (.error e, st')
    | (.ok _, st') => runBody fuel root stack cs st'

end

mutual

/-- Specification-side description of which `call-composite` nodes a traced
invocation emits, following the spec's words: an atomic component contributes
exactly its resolved qualified path; a composite component contributes no
entry of its own, only the entries of its atomic descendants in the order
the single execution reaches them (through the same guard discipline the
interceptor uses). -/
def specAtomicCalls : Nat → Module → List Frame → ObjId → List String
  | 0, _, _, _ => []
  | fuel + 1, root, stack, oid =>
    match findModuleWithName root oid with
    | none => []
    | some (target, m) =>
      if bypassOn stack oid then
        specAtomicCallsBody fuel root ((oid, false) :: stack) m.body
      else
        if isLeaf m then [target]
        else specAtomicCalls fuel root ((oid, true) :: stack) oid

/-- Specification-side `call-composite` entries of a `forward` body:
concatenation over the sub-invocations in the order they are reached,
mirroring the fuel discipline of `runBody`. -/
def specAtomicCallsBody : Nat → Module → List Frame → List BCall → List String
  | _, _, _, [] => []
  | 0, _, _, _ :: _ => []
  | fuel + 1, root, stack, c :: cs =>
    specAtomicCalls fuel root stack c.1 ++ specAtomicCallsBody fuel root stack cs

end

/-- Projection reading the `call_module` entries out of a node list. -/
def callTargetOf (n : Node) : Option String :=
  if n.kind == "call_module" then some n.target else none

/-- Count of `call_module` nodes in a node list. -/
def countCallModule (l : List Node) : Nat :=
  (l.filterMap callTargetOf).length

/-- Shape of a code object as `Tracer.trace` inspects it:
`co_argcount` (including the receiver), `co_kwonlyargcount`, the
`CO_VARARGS` and `CO_VARKEYWORDS` flags, and `co_varnames` (positional
parameters, then keyword-only parameters, then the variadic parameter
names, then the plain locals). -/
structure Sig where
  argcount : Nat
  kwonlyargcount : Nat
  hasVarargs : Bool
  hasVarkw : Bool
  varnames : List String
deriving Repr, DecidableEq

/-- Embedding of `_patch_function` (symbolic_trace.py:19-40): the rebuilt
code object gets `co_argcount = nargs`, `co_kwonlyargcount = 0`, and the
variadic flags cleared, everything else preserved. -/
def patchFunction (sig : Sig) (nargs : Nat) : Sig :=
  { sig with
      argcount := nargs
      kwonlyargcount := 0
      hasVarargs := false
      hasVarkw := false }

/-- Embedding of the placeholder construction in `Tracer.trace`
(symbolic_trace.py:140-151): skip the first variable name (the receiver),
take one name per remaining declared parameter in declaration order, then,
when the signature is variadic or has keyword-only parameters, append the
`*`-marked and `**`-marked variadic names and patch the function to the
fixed arity `1 + number of placeholders` (the receiver is passed
explicitly as `args[0]`).  Returns the placeholder names in creation order
and the patched signature when patching occurs. -/
def buildPlaceholders (sig : Sig) : List String × Option Sig :=
  let total := sig.argcount + sig.kwonlyargcount
  let base := (sig.varnames.drop 1).take (total - 1)
  if sig.kwonlyargcount > 0 || sig.hasVarargs || sig.hasVarkw then
    let withVa :=
      if sig.hasVarargs then base ++ ["*" ++ sig.varnames.getD total ""] else base
    let withVk :=
      if sig.hasVarkw then
        withVa ++ ["**" ++ sig.varnames.getD (total + (if sig.hasVarargs then 1 else 0)) ""]
      else withVa
    (withVk, some (patchFunction sig (1 + withVk.length)))
  else (base, none)

/-- Class-level `forward` of the root as `type(root).forward` sees it:
either a plain Python function with its code-object signature and the value
its body returns, or some other callable (builtin, partial object, ...),
which fails the `assert isinstance(fn, FunctionType)`. -/
inductive Forward where
  | plain (sig : Sig) (ret : Value)
  | notFunction
deriving Repr, DecidableEq

/-- The root model handed to `trace`: the module tree plus the class-level
`forward` metadata. -/
structure Root where
  modl : Module
  forward : Forward

/-- Result of one `trace` call: the outcome, and the log of mutations of the
global hook `torch.nn.Module.__call__` (`true` = replaced by
`module_call_wrapper`, `false` = original restored). -/
structure TraceOut where
  result : Except Err (List Node)
  hookLog : List Bool

/-- Embedding of `Tracer.trace` (symbolic_trace.py:133-180): assert the
class-level `forward` is a plain function, create the placeholder nodes,
install the wrapper as `torch.nn.Module.__call__`, run the forward body with
the re-entrancy stack initially empty, normalize the returned value, append
the `output` node, and — in the `finally` block, hence on the normal path
and on every error path alike — restore the original `__call__`.  A failed
trace surfaces the error and returns no graph. -/
def traceFn (fuel : Nat) (r : Root) : TraceOut :=
  match r.forward with
  | .notFunction => ⟨.error .assertionError, []⟩
  | .plain sig ret =>
    let (phNames, _) := buildPlaceholders sig
    let st0 : St := ⟨r.modl, [], []⟩
    let st1 := phNames.foldl (fun st n => (createNode st "placeholder" n []).2) st0
    match runBody fuel r.modl [] r.modl.body st1 with
    | (.error e, _) => ⟨.error e, [true, false]⟩
    | (.ok _, st2) =>
      match create_arg st2 ret with
      | (.error e, _) => ⟨.error e, [true, false]⟩
      | (.ok a, st3) =>
        let (_, st4) := createNode st3 "output" "output" [a]
        ⟨.ok st4.nodes, [true, false]⟩

/-- Structural decimal rendering of a natural number; shown below to agree
with `Nat.repr`, which gives an injectivity proof for generated names. -/
def decChars (n : Nat) : List Char :=
  if n < 10 then [Nat.digitChar n]
  else decChars (n / 10) ++ [Nat.digitChar (n % 10)]
decreasing_by exact Nat.div_lt_self (by omega) (by omega)

/-- Names the root exposes to `hasattr`, flattened. -/
def allNames (m : Module) : List String :=
  m.attrs.map Prod.fst ++ m.params.map Prod.fst ++ m.children.names

/-- Discriminates the `isinstance(a, torch.nn.Parameter)` check. -/
def isParameterVal : Value → Bool
  | .tensor _ p => p
  | _ => false

/-- Discriminates the `isinstance(a, torch.Tensor)` check; `torch.nn.Parameter`
is a subclass of `torch.Tensor`, so every parameter is also a tensor. -/
def isTensorVal : Value → Bool
  | .tensor _ _ => true
  | _ => false

/-- Net state of the global hook after replaying a mutation log:
`true` iff the last mutation installed the wrapper. -/
def hookInstalledAfter (log : List Bool) : Bool :=
  log.foldl (fun _ b => b) false

/-- Example fixture: a leaf module (`torch.nn` namespace) with one parameter. -/
def exLeaf : Module :=
  .mk 1 "torch.nn.modules.linear" false [] [("weight", 11)] .nil []

/-- Example fixture: a second leaf module. -/
def exLeaf2 : Module :=
  .mk 2 "torch.nn.modules.conv" false [] [] .nil []

/-- Example fixture: a composite block whose forward calls both leaves. -/
def exBlock : Module :=
  .mk 3 "mylib.block" false [] [] (.cons "a" exLeaf (.cons "b" exLeaf2 .nil))
    [(1, []), (2, [])]

/-- Example fixture: a root whose forward calls the composite block, holding
one constant tensor attribute. -/
def exRoot : Module :=
  .mk 0 "mymodel" false [("c", 31)] [] (.cons "blk" exBlock .nil) [(3, [])]

/-- Example fixture: initial trace state over `exRoot`. -/
def exSt : St := ⟨exRoot, [], []⟩

theorem decChars_eq_low {n : Nat} (h : n < 10) : decChars n = [Nat.digitChar n] := by
  rw [decChars, if_pos h]

theorem decChars_eq_high {n : Nat} (h : ¬n < 10) :
    decChars n = decChars (n / 10) ++ [Nat.digitChar (n % 10)] := by
  rw [decChars, if_neg h]

theorem decChars_ne_nil (n : Nat) : decChars n ≠ [] := by
  rw [decChars]
  by_cases h : n < 10 <;> simp [h]

theorem toDigitsCore_eq_decChars :
    ∀ f n acc, n < f → Nat.toDigitsCore 10 f n acc = decChars n ++ acc := by
  intro f
  induction f with
  | zero => intro n acc h; omega
  | succ f ih =>
    intro n acc h
    by_cases h10 : n / 10 = 0
    · have hlt : n < 10 := by omega
      rw [decChars_eq_low hlt]
      simp [Nat.toDigitsCore, h10, Nat.mod_eq_of_lt hlt]
    · have hn10 : ¬n < 10 := by omega
      have hdiv : n / 10 < f := by
        have := Nat.div_lt_self (show 0 < n by omega) (show 1 < 10 by omega)
        omega
      rw [decChars_eq_high hn10]
      simp only [Nat.toDigitsCore, h10, if_false]
      rw [ih (n / 10) _ hdiv, List.append_assoc]
      rfl

theorem repr_eq_decChars (n : Nat) : Nat.repr n = (decChars n).asString := by
  rw [Nat.repr, Nat.toDigits, toDigitsCore_eq_decChars (n + 1) n [] (by omega)]
  simp

theorem digitChar_inj : ∀ a < 10, ∀ b < 10, Nat.digitChar a = Nat.digitChar b → a = b := by
  decide

theorem decChars_inj : ∀ m n : Nat, decChars m = decChars n → m = n := by
  intro m
  induction m using Nat.strong_induction_on with
  | _ m ih =>
    intro n h
    by_cases hm : m < 10 <;> by_cases hn : n < 10
    · rw [decChars_eq_low hm, decChars_eq_low hn] at h
      exact digitChar_inj m hm n hn (List.singleton_injective h)
    · rw [decChars_eq_low hm, decChars_eq_high hn] at h
      have hlen := congrArg List.length h
      simp at hlen
      exact absurd hlen (decChars_ne_nil (n / 10))
    · rw [decChars_eq_high hm, decChars_eq_low hn] at h
      have hlen := congrArg List.length h
      simp at hlen
      exact absurd hlen (decChars_ne_nil (m / 10))
    · rw [decChars_eq_high hm, decChars_eq_high hn] at h
      have hp := List.append_inj' h (by simp)
      have h1 : m / 10 = n / 10 :=
        ih (m / 10) (Nat.div_lt_self (by omega) (by omega)) (n / 10) hp.1
      have h2 : m % 10 = n % 10 :=
        digitChar_inj (m % 10) (Nat.mod_lt m (by omega)) (n % 10)
          (Nat.mod_lt n (by omega)) (List.singleton_injective hp.2)
      omega

theorem reprNat_inj {m n : Nat} (h : Nat.repr m = Nat.repr n) : m = n := by
  rw [repr_eq_decChars, repr_eq_decChars] at h
  exact decChars_inj m n (by simpa [List.asString, String.ext_iff] using h)

theorem tcName_inj {i j : Nat} (h : tcName i = tcName j) : i = j := by
  apply reprNat_inj
  have := congrArg String.data h
  simp only [tcName, String.data_append] at this
  exact String.ext (List.append_cancel_left this)

theorem hasattrB_iff {m : Module} {s : String} :
    hasattrB m s = true ↔ s ∈ allNames m := by
  simp [hasattrB, allNames, List.elem_iff, or_assoc]

theorem length_allNames (m : Module) : (allNames m).length = attrBound m := by
  simp [allNames, attrBound]
  omega

theorem exists_fresh (root : Module) :
    ∃ i, i ≤ attrBound root ∧ hasattrB root (tcName i) = false := by
  by_contra hc
  push_neg at hc
  have hmem : ∀ i ≤ attrBound root, tcName i ∈ allNames root := by
    intro i hi
    have := hc i hi
    rw [← hasattrB_iff]
    revert this
    cases hasattrB root (tcName i) <;> simp
  have hsub : (List.range (attrBound root + 1)).map tcName ⊆ allNames root := by
    intro s hs
    simp only [List.mem_map, List.mem_range] at hs
    obtain ⟨i, hi, rfl⟩ := hs
    exact hmem i (by omega)
  have hnd : ((List.range (attrBound root + 1)).map tcName).Nodup :=
    (List.nodup_range _).map (fun a b hab => tcName_inj hab)
  have hle := (List.subperm_of_subset hnd hsub).length_le
  rw [length_allNames] at hle
  simp at hle

theorem freshIdxAux_spec (root : Module) :
    ∀ fuel start, (∃ k, k < fuel ∧ hasattrB root (tcName (start + k)) = false) →
      hasattrB root (tcName (freshIdxAux root fuel start)) = false ∧
      start ≤ freshIdxAux root fuel start ∧
      ∀ j, start ≤ j → j < freshIdxAux root fuel start → hasattrB root (tcName j) = true := by
  intro fuel
  induction fuel with
  | zero => intro start h; omega
  | succ fuel ih =>
    intro start h
    rw [freshIdxAux]
    by_cases hs : hasattrB root (tcName start) = true
    · rw [if_pos hs]
      obtain ⟨k, hk, hfree⟩ := h
      have hk0 : k ≠ 0 := by
        intro h0
        rw [h0, Nat.add_zero, hs] at hfree
        exact Bool.noConfusion hfree
      have hrec := ih (start + 1) ⟨k - 1, by omega, by
        have : start + 1 + (k - 1) = start + k := by omega
        rw [this]; exact hfree⟩
      refine ⟨hrec.1, by omega, ?_⟩
      intro j hj1 hj2
      rcases Nat.eq_or_lt_of_le hj1 with rfl | hlt
      · exact hs
      · exact hrec.2.2 j (by omega) hj2
    · have hs' : hasattrB root (tcName start) = false := by
        revert hs; cases hasattrB root (tcName start) <;> simp
      rw [if_neg (by simp [hs'])]
      exact ⟨hs', Nat.le_refl _, fun j h1 h2 => by omega⟩

theorem freshIdx_spec (root : Module) :
    hasattrB root (tcName (freshIdx root)) = false ∧
      ∀ j < freshIdx root, hasattrB root (tcName j) = true := by
  obtain ⟨i, hle, hfree⟩ := exists_fresh root
  have h := freshIdxAux_spec root (attrBound root + 1) 0 ⟨i, by omega, by simpa using hfree⟩
  exact ⟨h.1, fun j hj => h.2.2 j (by omega) hj⟩

theorem findByIdent_mem {l : List (String × ObjId)} {oid : ObjId} {n : String}
    (h : findByIdent l oid = some n) : n ∈ l.map Prod.fst := by
  unfold findByIdent at h
  cases hf : l.find? (fun q => q.2 == oid) with
  | none => rw [hf] at h; simp at h
  | some p =>
    rw [hf] at h
    simp at h
    exact h ▸ List.mem_map_of_mem _ (List.mem_of_find?_eq_some hf)

theorem searchChildren_shape (a : ObjId) :
    ∀ (cs : Children) (l : List String), searchChildren a cs = some l →
      ∃ n m' atoms, l = n :: atoms ∧ searchForTensor a m' = some atoms
  | .nil, l, h => by simp [searchChildren] at h
  | .cons n c rest, l, h => by
    rw [searchChildren] at h
    cases hc : searchForTensor a c with
    | some atoms =>
      rw [hc] at h
      exact ⟨n, c, atoms, by injection h with h2; exact h2.symm, hc⟩
    | none =>
      rw [hc] at h
      exact searchChildren_shape a rest l h

theorem searchForTensor_ne_nil (a : ObjId) (m : Module) : searchForTensor a m ≠ some [] := by
  cases m with
  | mk o ns sq attrs ps cs b =>
    rw [searchForTensor]
    cases hf : findByIdent attrs a with
    | some n => simp
    | none =>
      simp only
      intro hc
      obtain ⟨n, m', atoms, heq, _⟩ := searchChildren_shape a cs [] hc
      exact List.noConfusion heq

theorem searchForTensor_some (a : ObjId) (m : Module) (l : List String)
    (h : searchForTensor a m = some l) :
    (∃ n, l = [n] ∧ findByIdent m.attrs a = some n) ∨
    (∃ n atoms, l = n :: atoms ∧ atoms ≠ []) := by
  cases m with
  | mk o ns sq attrs ps cs b =>
    rw [searchForTensor] at h
    cases hf : findByIdent attrs a with
    | some n =>
      rw [hf] at h
      injection h with h2
      exact Or.inl ⟨n, h2.symm, by simp [Module.attrs, hf]⟩
    | none =>
      rw [hf] at h
      obtain ⟨n, m', atoms, heq, hsub⟩ := searchChildren_shape a cs l h
      refine Or.inr ⟨n, atoms, heq, fun hnil => ?_⟩
      rw [hnil] at hsub
      exact searchForTensor_ne_nil a m' hsub

theorem joinDots_two_ne (n a : String) (rest : List String) :
    joinDots (n :: a :: rest) ≠ "" := by
  intro h
  have h1 := congrArg String.length h
  rw [joinDots] at h1
  · rw [String.length_append, String.length_append] at h1
    have h2 : ("." : String).length = 1 := rfl
    have h3 : ("" : String).length = 0 := rfl
    omega
  · intro hh
    exact List.noConfusion hh

/-- C8: the default classifier marks a component atomic exactly when its
defining module namespace begins with `torch.nn` and the component is not an
instance of the generic ordered container type `torch.nn.Sequential`. -/
theorem claim8_default_classifier (m : Module) :
    isLeaf m = true ↔ ("torch.nn".data <+: m.ns.data ∧ m.isSeq = false) := by
  cases h : m.isSeq <;>
    simp [isLeaf, pyStartsWith, h, List.isPrefixOf_iff_prefix]

/-- C4: normalizing a learnable-parameter value emits a `get_param` node
targeting the dotted qualified name of the first root parameter identical to
it, and raises the unregistered-parameter `NameError` (leaving the state
untouched) when no root parameter matches by identity. -/
theorem claim4_parameter_resolution (st : St) (oid : ObjId) :
    (∀ n, findByIdent (namedParameters st.root) oid = some n →
        create_arg st (.tensor oid true) =
          (.ok (.node st.nodes.length),
            ⟨st.root, st.nodes ++ [⟨"get_param", n, []⟩], st.ran⟩)) ∧
    (findByIdent (namedParameters st.root) oid = none →
        create_arg st (.tensor oid true) = (.error .nameErrorParameter, st)) := by
  constructor
  · intro n h
    simp [create_arg, h, createNode]
  · intro h
    simp [create_arg, h]

/-- C4 witness: in the example model, parameter object `11` resolves to
`blk.a.weight`; parameter object `99` raises the unregistered condition. -/
theorem claim4_parameter_resolution_witness :
    findByIdent (namedParameters exSt.root) 11 = some "blk.a.weight" ∧
    create_arg exSt (.tensor 11 true) =
      (.ok (.node 0), ⟨exRoot, [⟨"get_param", "blk.a.weight", []⟩], []⟩) ∧
    findByIdent (namedParameters exSt.root) 99 = none ∧
    create_arg exSt (.tensor 99 true) = (.error .nameErrorParameter, exSt) :=
  ⟨rfl, (claim4_parameter_resolution exSt 11).1 "blk.a.weight" rfl, rfl,
    (claim4_parameter_resolution exSt 99).2 rfl⟩

/-- C9: the parameter branch of `create_arg` precedes the tensor branch and
parameters are tensors, so a parameter that is not identity-present among
the root's named parameters always raises the unregistered-parameter
condition and is never captured as a found or synthesized tensor constant:
the state (graph nodes and root attributes) is returned unchanged. -/
theorem claim9_parameter_before_tensor (st : St) (oid : ObjId) :
    (∀ v : Value, isParameterVal v = true → isTensorVal v = true) ∧
    isParameterVal (.tensor oid true) = true ∧
    (findByIdent (namedParameters st.root) oid = none →
      create_arg st (.tensor oid true) = (.error .nameErrorParameter, st) ∧
      (create_arg st (.tensor oid true)).2.root = st.root ∧
      (create_arg st (.tensor oid true)).2.nodes = st.nodes) := by
  refine ⟨fun v hv => ?_, rfl, fun h => ?_⟩
  · cases v <;> simp_all [isParameterVal, isTensorVal]
  · have he : create_arg st (.tensor oid true) = (.error .nameErrorParameter, st) := by
      simp [create_arg, h]
    exact ⟨he, by rw [he], by rw [he]⟩

/-- C9 witness: parameter object `99` is not registered in the example model;
its normalization raises and synthesizes nothing. -/
theorem claim9_parameter_before_tensor_witness :
    findByIdent (namedParameters exSt.root) 99 = none ∧
    create_arg exSt (.tensor 99 true) = (.error .nameErrorParameter, exSt) ∧
    (create_arg exSt (.tensor 99 true)).2.root = exRoot :=
  ⟨rfl, ((claim9_parameter_before_tensor exSt 99).2.2 rfl).1,
    ((claim9_parameter_before_tensor exSt 99).2.2 rfl).2.1⟩

/-- C7: every intercepted invocation resolves the invoked component by
identity over the root's named sub-components before anything else; when the
component is not reachable from the root the wrapper raises the
unregistered-module `NameError` with the trace state untouched — no node is
emitted and no real call is performed — for every stack, in particular for
stacks on which the re-entrancy guard would have bypassed interception. -/
theorem claim7_resolution_first (fuel : Nat) (root : Module) (stack : List Frame)
    (oid : ObjId) (args : List Value) (st : St)
    (h : findModuleWithName root oid = none) :
    wrapperRun (fuel + 1) root stack oid args st = (.error .nameErrorModule, st) := by
  simp [wrapperRun, h]

/-- C7 witness: object `77` is not a sub-module of the example root; the
wrapper fails identically on an empty stack and on a bypass-eligible stack. -/
theorem claim7_resolution_first_witness :
    findModuleWithName exRoot 77 = none ∧
    wrapperRun 5 exRoot [(77, true)] 77 [] exSt = (.error .nameErrorModule, exSt) ∧
    wrapperRun 5 exRoot [] 77 [] exSt = (.error .nameErrorModule, exSt) :=
  ⟨rfl, claim7_resolution_first 4 exRoot [(77, true)] 77 [] exSt rfl,
    claim7_resolution_first 4 exRoot [] 77 [] exSt rfl⟩

/-- C5: the re-entrancy guard detects a re-entrant invocation by checking the
nearest enclosing interception frame for the identical component instance
marked as already redirected; in that case the wrapper bypasses interception
and performs the real, unrecorded invocation (the module's own logic runs,
no node is appended), so a re-entrant self-invocation of an atomic component
neither duplicates the `call_module` node nor recurses without bound, and
the outer, non-re-entrant dispatch emits exactly one node. -/
theorem claim5_reentrancy_guard (fuel : Nat) (root : Module) (stack : List Frame)
    (oid : ObjId) (args : List Value) (st : St) (target : String) (m : Module)
    (hfind : findModuleWithName root oid = some (target, m))
    (hleaf : isLeaf m = true) (hbody : m.body = []) :
    bypassOn ((oid, true) :: stack) oid = true ∧
    wrapperRun (fuel + 1) root ((oid, true) :: stack) oid args st =
      (.ok .vnone, ⟨st.root, st.nodes, st.ran ++ [oid]⟩) ∧
    wrapperRun (fuel + 1) root [] oid [] st =
      (.ok (.proxy st.nodes.length),
        ⟨st.root, st.nodes ++ [⟨"call_module", target, []⟩], st.ran⟩) := by
  refine ⟨by simp [bypassOn], ?_, ?_⟩
  · simp [wrapperRun, hfind, bypassOn, hbody, runBody]
  · simp [wrapperRun, hfind, bypassOn, hleaf, createProxy, createArgs, createNode]

/-- C5 witness: leaf `blk.a` of the example model, invoked re-entrantly under
its own marked frame (bypassed, unrecorded) and non-re-entrantly (one node). -/
theorem claim5_reentrancy_guard_witness :
    findModuleWithName exRoot 1 = some ("blk.a", exLeaf) ∧ isLeaf exLeaf = true ∧
    exLeaf.body = [] ∧
    wrapperRun 5 exRoot [(1, true)] 1 [] exSt = (.ok .vnone, ⟨exRoot, [], [1]⟩) ∧
    wrapperRun 5 exRoot [] 1 [] exSt =
      (.ok (.proxy 0), ⟨exRoot, [⟨"call_module", "blk.a", []⟩], []⟩) := by
  have h := claim5_reentrancy_guard 4 exRoot [] 1 [] exSt "blk.a" exLeaf rfl rfl rfl
  exact ⟨rfl, rfl, rfl, h.2.1, h.2.2⟩

/-- C6: one placeholder is created per declared formal parameter excluding
the implicit receiver, in declaration order: `(self, x, y)` yields exactly
the two placeholders `x`, `y` in that order (and a trace over such a forward
emits exactly those placeholder nodes, in order, before the output node);
`(self, x, *rest, **kw)` yields three placeholders — `x`, one marked for
`rest`, one marked for `kw` — with the callable patched to the matching
fixed arity (four declared arguments: the receiver plus three). -/
theorem claim6_placeholders (s x y rest kw : String) (locals : List String)
    (m : Module) (fuel : Nat) (hbody : m.body = []) :
    buildPlaceholders ⟨3, 0, false, false, [s, x, y] ++ locals⟩ = ([x, y], none) ∧
    buildPlaceholders ⟨2, 0, true, true, [s, x, rest, kw] ++ locals⟩ =
      ([x, "*" ++ rest, "**" ++ kw],
        some ⟨4, 0, false, false, [s, x, rest, kw] ++ locals⟩) ∧
    (traceFn fuel ⟨m, .plain ⟨3, 0, false, false, [s, x, y] ++ locals⟩ .vnone⟩).result =
      .ok [⟨"placeholder", x, []⟩, ⟨"placeholder", y, []⟩,
        ⟨"output", "output", [.lit .vnone]⟩] := by
  refine ⟨?_, ?_, ?_⟩
  · simp [buildPlaceholders]
  · simp [buildPlaceholders, patchFunction]
  · simp [traceFn, buildPlaceholders, createNode, hbody, runBody, create_arg]

/-- C6 witness: concrete signatures over the example root. -/
theorem claim6_placeholders_witness :
    exRoot.body = [(3, [])] ∧ exLeaf.body = [] ∧
    buildPlaceholders ⟨3, 0, false, false, ["self", "x", "y"]⟩ = (["x", "y"], none) ∧
    buildPlaceholders ⟨2, 0, true, true, ["self", "x", "rest", "kw"]⟩ =
      (["x", "*rest", "**kw"],
        some ⟨4, 0, false, false, ["self", "x", "rest", "kw"]⟩) ∧
    (traceFn 5 ⟨exLeaf, .plain ⟨3, 0, false, false, ["self", "x", "y"]⟩ .vnone⟩).result =
      .ok [⟨"placeholder", "x", []⟩, ⟨"placeholder", "y", []⟩,
        ⟨"output", "output", [.lit .vnone]⟩] := by
  have h := claim6_placeholders "self" "x" "y" "rest" "kw" [] exLeaf 5 rfl
  exact ⟨rfl, rfl, h.1, h.2.1, h.2.2⟩

/-- C10: `trace` requires via assertion that the root's class-level forward
is a plain Python function — any other callable fails with the assertion
error, which is none of the documented error conditions — and the first
declared variable name is skipped unconditionally as the implicit receiver:
the placeholders built from a signature do not depend on it. -/
theorem claim10_forward_assertion (fuel : Nat) (r : Root) (sig : Sig)
    (a b : String) (tl : List String) :
    (r.forward = .notFunction → traceFn fuel r = ⟨.error .assertionError, []⟩) ∧
    (Err.assertionError ≠ Err.nameErrorModule ∧
      Err.assertionError ≠ Err.nameErrorParameter) ∧
    (1 ≤ sig.argcount →
      (buildPlaceholders { sig with varnames := a :: tl }).1 =
        (buildPlaceholders { sig with varnames := b :: tl }).1) := by
  refine ⟨fun h => by simp [traceFn, h], ⟨by simp, by simp⟩, fun h1 => ?_⟩
  obtain ⟨k, hk⟩ : ∃ k, sig.argcount + sig.kwonlyargcount = k + 1 :=
    ⟨sig.argcount + sig.kwonlyargcount - 1, by omega⟩
  by_cases hva : sig.hasVarargs <;> by_cases hvk : sig.hasVarkw
  all_goals simp [buildPlaceholders, hk, hva, hvk]
  all_goals split <;> rfl

/-- C10 witness: a root whose class-level forward is a builtin fails the
assertion; the placeholder construction ignores the receiver's name. -/
theorem claim10_forward_assertion_witness :
    traceFn 5 ⟨exRoot, .notFunction⟩ = ⟨.error .assertionError, []⟩ ∧
    (buildPlaceholders ⟨2, 0, false, false, ["self", "x"]⟩).1 =
      (buildPlaceholders ⟨2, 0, false, false, ["this", "x"]⟩).1 := by
  have h := claim10_forward_assertion 5 ⟨exRoot, .notFunction⟩
    ⟨2, 0, false, false, ["self", "x"]⟩ "self" "this" ["x"]
  exact ⟨h.1 rfl, h.2.2 (by decide)⟩

/-- C2: for every trace whose forward passes the function assertion, the
global hook is installed once and uninstalled exactly once, unconditionally,
whether the traced execution returns normally or raises anywhere inside it
(including while normalizing the output); the net hook state at the end is
the original `__call__`, and a failed trace returns no graph. -/
theorem claim2_guaranteed_teardown (fuel : Nat) (r : Root) (sig : Sig) (ret : Value)
    (h : r.forward = .plain sig ret) :
    (traceFn fuel r).hookLog = [true, false] ∧
    hookInstalledAfter (traceFn fuel r).hookLog = false ∧
    (∀ e, (traceFn fuel r).result = .error e →
      ∀ g, (traceFn fuel r).result ≠ .ok g) := by
  have hlog : (traceFn fuel r).hookLog = [true, false] := by
    rw [traceFn, h]
    rcases hbp : buildPlaceholders sig with ⟨phN, po⟩
    simp only [hbp]
    rcases hrb : runBody fuel r.modl [] r.modl.body
        (phN.foldl (fun st n => (createNode st "placeholder" n []).2) ⟨r.modl, [], []⟩)
      with ⟨res, st2⟩
    cases res with
    | error e => simp [hrb]
    | ok u =>
      rcases hca : create_arg st2 ret with ⟨res2, st3⟩
      cases res2 with
      | error e => simp [hrb, hca]
      | ok a => simp [hrb, hca, createNode]
  refine ⟨hlog, by rw [hlog]; rfl, fun e he g hg => ?_⟩
  rw [he] at hg
  exact Except.noConfusion hg

/-- C2 witness: a trace whose body invokes an unregistered module raises, yet
the hook log still records exactly one installation and one removal, and the
result carries no graph. -/
theorem claim2_guaranteed_teardown_witness :
    (⟨Module.mk 0 "m" false [] [] .nil [(99, [])], .plain ⟨2, 0, false, false,
        ["self", "x"]⟩ .vnone⟩ : Root).forward =
      .plain ⟨2, 0, false, false, ["self", "x"]⟩ .vnone ∧
    (traceFn 5 ⟨Module.mk 0 "m" false [] [] .nil [(99, [])],
        .plain ⟨2, 0, false, false, ["self", "x"]⟩ .vnone⟩).result =
      .error .nameErrorModule ∧
    (traceFn 5 ⟨Module.mk 0 "m" false [] [] .nil [(99, [])],
        .plain ⟨2, 0, false, false, ["self", "x"]⟩ .vnone⟩).hookLog = [true, false] :=
  ⟨rfl, rfl,
    (claim2_guaranteed_teardown 5 ⟨Module.mk 0 "m" false [] [] .nil [(99, [])],
      .plain ⟨2, 0, false, false, ["self", "x"]⟩ .vnone⟩
      ⟨2, 0, false, false, ["self", "x"]⟩ .vnone rfl).1⟩

theorem create_arg_delta (st : St) (v : Value) :
    ∃ Δ, (create_arg st v).2.nodes = st.nodes ++ Δ ∧
      (∀ n ∈ Δ, n.kind = "get_param") ∧ (create_arg st v).2.ran = st.ran := by
  cases v with
  | proxy i => exact ⟨[], by simp [create_arg], by simp, rfl⟩
  | vnone => exact ⟨[], by simp [create_arg], by simp, rfl⟩
  | num n => exact ⟨[], by simp [create_arg], by simp, rfl⟩
  | tensor oid ip =>
    cases ip with
    | true =>
      cases h : findByIdent (namedParameters st.root) oid with
      | some n =>
        exact ⟨[⟨"get_param", n, []⟩], by simp [create_arg, h, createNode],
          by simp, by simp [create_arg, h, createNode]⟩
      | none => exact ⟨[], by simp [create_arg, h], by simp, by simp [create_arg, h]⟩
    | false =>
      cases hs : searchForTensor oid st.root with
      | none =>
        exact ⟨[⟨"get_param", tcName (freshIdx st.root), []⟩],
          by simp [create_arg, hs, createNode], by simp,
          by simp [create_arg, hs, createNode]⟩
      | some atoms =>
        by_cases hq : joinDots atoms = ""
        · exact ⟨[⟨"get_param", tcName (freshIdx st.root), []⟩],
            by simp [create_arg, hs, hq, createNode], by simp,
            by simp [create_arg, hs, hq, createNode]⟩
        · exact ⟨[⟨"get_param", joinDots atoms, []⟩],
            by simp [create_arg, hs, hq, createNode], by simp,
            by simp [create_arg, hs, hq, createNode]⟩

theorem createArgs_delta : ∀ (vs : List Value) (st : St),
    ∃ Δ, (createArgs st vs).2.nodes = st.nodes ++ Δ ∧
      (∀ n ∈ Δ, n.kind = "get_param") ∧ (createArgs st vs).2.ran = st.ran
  | [], st => ⟨[], by simp [createArgs], by simp, rfl⟩
  | v :: vs, st => by
    obtain ⟨Δ1, h1, h2, h3⟩ := create_arg_delta st v
    rcases hca : create_arg st v with ⟨res, st1⟩
    rw [hca] at h1 h3
    cases res with
    | error e =>
      exact ⟨Δ1, by simp [createArgs, hca]; exact h1, h2,
        by simp [createArgs, hca]; exact h3⟩
    | ok a =>
      obtain ⟨Δ2, g1, g2, g3⟩ := createArgs_delta vs st1
      rcases hcs : createArgs st1 vs with ⟨res2, st2⟩
      rw [hcs] at g1 g3
      have hn : st2.nodes = st.nodes ++ (Δ1 ++ Δ2) := by
        rw [← List.append_assoc, ← h1]
        exact g1
      have hr : st2.ran = st.ran := by rw [g3, h3]
      have hmem : ∀ n ∈ Δ1 ++ Δ2, n.kind = "get_param" := by
        intro n hn'
        rcases List.mem_append.mp hn' with h' | h'
        · exact h2 n h'
        · exact g2 n h'
      cases res2 with
      | error e => exact ⟨Δ1 ++ Δ2, by simp [createArgs, hca, hcs]; exact hn, hmem,
          by simp [createArgs, hca, hcs]; exact hr⟩
      | ok as' => exact ⟨Δ1 ++ Δ2, by simp [createArgs, hca, hcs]; exact hn, hmem,
          by simp [createArgs, hca, hcs]; exact hr⟩

theorem filterMap_getParam_nil {Δ : List Node}
    (h : ∀ n ∈ Δ, n.kind = "get_param") : Δ.filterMap callTargetOf = [] := by
  rw [List.filterMap_eq_nil_iff]
  intro n hn
  simp [callTargetOf, h n hn]

/-- Central refinement lemma: a successful wrapper dispatch appends exactly
the node suffix whose `call_module` entries are the atomic-call sequence the
spec describes; similarly for a successful body run. -/
theorem run_spec : ∀ fuel : Nat,
    (∀ root stack oid args st v st',
      wrapperRun fuel root stack oid args st = (.ok v, st') →
      ∃ Δ, st'.nodes = st.nodes ++ Δ ∧
        Δ.filterMap callTargetOf = specAtomicCalls fuel root stack oid) ∧
    (∀ root stack cs st u st',
      runBody fuel root stack cs st = (.ok u, st') →
      ∃ Δ, st'.nodes = st.nodes ++ Δ ∧
        Δ.filterMap callTargetOf = specAtomicCallsBody fuel root stack cs) := by
  intro fuel
  induction fuel with
  | zero =>
    constructor
    · intro root stack oid args st v st' h
      simp [wrapperRun] at h
    · intro root stack cs st u st' h
      cases cs with
      | nil =>
        simp [runBody] at h
        subst h
        exact ⟨[], by simp, by simp [specAtomicCallsBody]⟩
      | cons c cs' => simp [runBody] at h
  | succ fuel ih =>
    constructor
    · intro root stack oid args st v st' h
      rw [wrapperRun] at h
      cases hfind : findModuleWithName root oid with
      | none => rw [hfind] at h; simp at h
      | some tm =>
        obtain ⟨target, m⟩ := tm
        rw [hfind] at h
        simp only at h
        by_cases hby : bypassOn stack oid
        · rw [if_pos hby] at h
          rcases hrb : runBody fuel root ((oid, false) :: stack) m.body
              { st with ran := st.ran ++ [oid] } with ⟨res, st2⟩
          rw [hrb] at h
          cases res with
          | error e => simp at h
          | ok u2 =>
            simp at h
            obtain ⟨-, rfl⟩ := h
            obtain ⟨Δ, g1, g2⟩ := ih.2 root ((oid, false) :: stack) m.body
              { st with ran := st.ran ++ [oid] } u2 st2 hrb
            refine ⟨Δ, by simpa using g1, ?_⟩
            rw [g2, specAtomicCalls, hfind]
            simp [hby]
        · rw [if_neg hby] at h
          by_cases hleaf : isLeaf m
          · rw [if_pos hleaf] at h
            rw [createProxy] at h
            rcases hargs : createArgs st args with ⟨resA, stm⟩
            rw [hargs] at h
            cases resA with
            | error e => simp at h
            | ok nargs =>
              simp [createNode] at h
              obtain ⟨-, rfl⟩ := h
              obtain ⟨Δ1, d1, d2, -⟩ := createArgs_delta args st
              rw [hargs] at d1
              simp only at d1
              refine ⟨Δ1 ++ [⟨"call_module", target, nargs⟩], ?_, ?_⟩
              · rw [d1, List.append_assoc]
              · rw [List.filterMap_append, filterMap_getParam_nil d2,
                  specAtomicCalls, hfind]
                simp [hby, hleaf, callTargetOf]
          · rw [if_neg hleaf] at h
            obtain ⟨Δ, g1, g2⟩ := ih.1 root ((oid, true) :: stack) oid args st v st' h
            refine ⟨Δ, g1, ?_⟩
            rw [g2, specAtomicCalls, hfind]
            simp [hby, hleaf]
    · intro root stack cs st u st' h
      cases cs with
      | nil =>
        simp [runBody] at h
        subst h
        exact ⟨[], by simp, by simp [specAtomicCallsBody]⟩
      | cons c cs' =>
        rw [runBody] at h
        rcases hw : wrapperRun fuel root stack c.1 c.2 st with ⟨res, st1⟩
        rw [hw] at h
        cases res with
        | error e => simp at h
        | ok v1 =>
          simp only at h
          obtain ⟨Δ1, g1, g2⟩ := ih.1 root stack c.1 c.2 st v1 st1 hw
          obtain ⟨Δ2, k1, k2⟩ := ih.2 root stack cs' st1 u st' h
          refine ⟨Δ1 ++ Δ2, ?_, ?_⟩
          · rw [k1, g1, List.append_assoc]
          · rw [List.filterMap_append, g2, k2, specAtomicCallsBody]

/-- Every entry of the specification-side atomic-call sequence is the
resolved qualified path of some atomic (leaf) component of the root. -/
theorem specAtomicCalls_mem : ∀ fuel : Nat,
    (∀ root stack oid t, t ∈ specAtomicCalls fuel root stack oid →
      ∃ oid' m', findModuleWithName root oid' = some (t, m') ∧ isLeaf m' = true) ∧
    (∀ root stack cs t, t ∈ specAtomicCallsBody fuel root stack cs →
      ∃ oid' m', findModuleWithName root oid' = some (t, m') ∧ isLeaf m' = true) := by
  intro fuel
  induction fuel with
  | zero =>
    constructor
    · intro root stack oid t h
      simp [specAtomicCalls] at h
    · intro root stack cs t h
      cases cs with
      | nil => simp [specAtomicCallsBody] at h
      | cons c cs' => simp [specAtomicCallsBody] at h
  | succ fuel ih =>
    constructor
    · intro root stack oid t h
      rw [specAtomicCalls] at h
      cases hfind : findModuleWithName root oid with
      | none => rw [hfind] at h; simp at h
      | some tm =>
        obtain ⟨target, m⟩ := tm
        rw [hfind] at h
        simp only at h
        by_cases hby : bypassOn stack oid
        · rw [if_pos hby] at h
          exact ih.2 root ((oid, false) :: stack) m.body t h
        · rw [if_neg hby] at h
          by_cases hleaf : isLeaf m
          · rw [if_pos hleaf] at h
            simp at h
            exact ⟨oid, m, h ▸ hfind, hleaf⟩
          · rw [if_neg hleaf] at h
            exact ih.1 root ((oid, true) :: stack) oid t h
    · intro root stack cs t h
      cases cs with
      | nil => simp [specAtomicCallsBody] at h
      | cons c cs' =>
        rw [specAtomicCallsBody] at h
        rcases List.mem_append.mp h with h' | h'
        · exact ih.1 root stack c.1 t h'
        · exact ih.2 root stack cs' t h'

theorem fst_nodup_unique {α β : Type _} : ∀ (l : List (α × β)),
    (l.map Prod.fst).Nodup → ∀ a (b c : β), (a, b) ∈ l → (a, c) ∈ l → b = c
  | [], _, a, b, c, hb, _ => absurd hb (List.not_mem_nil _)
  | p :: tl, hnd, a, b, c, hb, hc => by
    rw [List.map_cons, List.nodup_cons] at hnd
    rcases List.mem_cons.mp hb with hb' | hb' <;>
      rcases List.mem_cons.mp hc with hc' | hc'
    · injection hb'.trans hc'.symm with h1 h2
    · exfalso
      apply hnd.1
      have hm : a ∈ List.map Prod.fst tl := List.mem_map_of_mem Prod.fst hc'
      rw [← hb']
      exact hm
    · exfalso
      apply hnd.1
      have hm : a ∈ List.map Prod.fst tl := List.mem_map_of_mem Prod.fst hb'
      rw [← hc']
      exact hm
    · exact fst_nodup_unique tl hnd.2 a b c hb' hc'

/-- C3: normalizing a non-parameter tensor constant performs the depth-first
identity search (a module's own attributes before its named children, first
match winning); on a match it emits a `get_param` node targeting the dotted
path of attribute lookups and leaves the root unchanged; when the value is
found nowhere it attaches the exact value to the root under the first free
name of the `__tensor_constant{i}` family — a name colliding with no
existing attribute — and emits a `get_param` node targeting it.  The
well-formedness hypothesis `hwf` records that Python attribute names are
never the empty string. -/
theorem claim3_tensor_constant_capture (st : St) (oid : ObjId)
    (hwf : "" ∉ st.root.attrs.map Prod.fst) :
    (∀ atoms, searchForTensor oid st.root = some atoms →
      create_arg st (.tensor oid false) =
        (.ok (.node st.nodes.length),
          ⟨st.root, st.nodes ++ [⟨"get_param", joinDots atoms, []⟩], st.ran⟩)) ∧
    (searchForTensor oid st.root = none →
      create_arg st (.tensor oid false) =
        (.ok (.node st.nodes.length),
          ⟨addRootAttr st.root (tcName (freshIdx st.root)) oid,
            st.nodes ++ [⟨"get_param", tcName (freshIdx st.root), []⟩], st.ran⟩) ∧
      hasattrB st.root (tcName (freshIdx st.root)) = false ∧
      ∀ j < freshIdx st.root, hasattrB st.root (tcName j) = true) ∧
    (∀ (m' : Module) (n : String), findByIdent m'.attrs oid = some n →
      searchForTensor oid m' = some [n]) := by
  refine ⟨fun atoms h => ?_, fun h => ?_, fun m' n h => ?_⟩
  · have hq : joinDots atoms ≠ "" := by
      rcases searchForTensor_some oid st.root atoms h with ⟨n, rfl, hfind⟩ | ⟨n, as, rfl, hne⟩
      · have hmem := findByIdent_mem hfind
        intro hc
        rw [joinDots] at hc
        rw [hc] at hmem
        exact hwf hmem
      · cases as with
        | nil => exact absurd rfl hne
        | cons a rest => exact joinDots_two_ne n a rest
    simp [create_arg, h, hq, createNode]
  · refine ⟨by simp [create_arg, h, createNode], (freshIdx_spec st.root).1,
      (freshIdx_spec st.root).2⟩
  · cases m' with
    | mk o ns sq attrs ps cs b =>
      simp only [Module.attrs] at h
      rw [searchForTensor, h]

/-- C3 witness: tensor object `31` is found as root attribute `c` (node to
path `c`, root untouched); tensor object `99` is found nowhere, so the root
gains the collision-free attribute `__tensor_constant0` holding it. -/
theorem claim3_tensor_constant_capture_witness :
    "" ∉ exSt.root.attrs.map Prod.fst ∧
    searchForTensor 31 exRoot = some ["c"] ∧
    create_arg exSt (.tensor 31 false) =
      (.ok (.node 0), ⟨exRoot, [⟨"get_param", "c", []⟩], []⟩) ∧
    searchForTensor 99 exRoot = none ∧
    create_arg exSt (.tensor 99 false) =
      (.ok (.node 0),
        ⟨addRootAttr exRoot "__tensor_constant0" 99,
          [⟨"get_param", "__tensor_constant0", []⟩], []⟩) ∧
    hasattrB exRoot "__tensor_constant0" = false := by
  have h := claim3_tensor_constant_capture exSt 31 (by decide)
  have h2 := claim3_tensor_constant_capture exSt 99 (by decide)
  exact ⟨by decide, rfl, h.1 ["c"] rfl, rfl, (h2.2.1 rfl).1, (h2.2.1 rfl).2.1⟩

/-- C1: for a sub-component invocation intercepted (not bypassed) during a
trace: if the classifier marks the component atomic, the interceptor
normalizes the call's arguments, appends exactly one `call_module` node
targeting the resolved dotted qualified path, and returns a fresh symbolic
value wrapping that node, without executing the component's real logic (the
`ran` log is unchanged); if the component is not atomic, the invocation
proceeds into the component's own logic and the appended `call_module`
nodes are exactly the atomic-call sequence of its atomic descendants in the
order reached — in particular (when qualified paths are unambiguous) no
node ever targets the composite itself. -/
theorem claim1_intercepted_dispatch (fuel : Nat) (root : Module) (stack : List Frame)
    (oid : ObjId) (args : List Value) (st : St) (target : String) (m : Module)
    (v : Value) (st' : St)
    (hfind : findModuleWithName root oid = some (target, m))
    (hnby : bypassOn stack oid = false)
    (hrun : wrapperRun (fuel + 1) root stack oid args st = (.ok v, st')) :
    (isLeaf m = true →
      ∃ nargs stm, createArgs st args = (.ok nargs, stm) ∧
        st' = ⟨stm.root, stm.nodes ++ [⟨"call_module", target, nargs⟩], stm.ran⟩ ∧
        v = .proxy stm.nodes.length ∧ st'.ran = st.ran ∧
        countCallModule st'.nodes = countCallModule st.nodes + 1) ∧
    (isLeaf m = false →
      ∃ Δ, st'.nodes = st.nodes ++ Δ ∧
        Δ.filterMap callTargetOf = specAtomicCalls (fuel + 1) root stack oid ∧
        (((namedModules root).map Prod.fst).Nodup →
          target ∉ Δ.filterMap callTargetOf)) := by
  constructor
  · intro hleaf
    rw [wrapperRun, hfind] at hrun
    simp only [hnby, hleaf, Bool.false_eq_true, if_false, if_true] at hrun
    rw [createProxy] at hrun
    rcases hargs : createArgs st args with ⟨resA, stm⟩
    rw [hargs] at hrun
    cases resA with
    | error e => simp at hrun
    | ok nargs =>
      simp [createNode] at hrun
      obtain ⟨hv, hst⟩ := hrun
      obtain ⟨Δ1, d1, d2, d3⟩ := createArgs_delta args st
      rw [hargs] at d1 d3
      simp only at d1 d3
      refine ⟨nargs, stm, rfl, hst.symm, hv.symm, ?_, ?_⟩
      · rw [← hst]
        exact d3
      · rw [← hst]
        simp only [countCallModule, d1, List.filterMap_append,
          filterMap_getParam_nil d2, List.length_append]
        simp [callTargetOf]
  · intro hnl
    obtain ⟨Δ, h1, h2⟩ := (run_spec (fuel + 1)).1 root stack oid args st v st' hrun
    refine ⟨Δ, h1, h2, ?_⟩
    intro hnodup hmem
    rw [h2] at hmem
    obtain ⟨oid', m', hfind', hleaf'⟩ :=
      (specAtomicCalls_mem (fuel + 1)).1 root stack oid target hmem
    have hm1 : (target, m) ∈ namedModules root := List.mem_of_find?_eq_some hfind
    have hm2 : (target, m') ∈ namedModules root := List.mem_of_find?_eq_some hfind'
    have heq := fst_nodup_unique (namedModules root) hnodup target m m' hm1 hm2
    rw [heq, hleaf'] at hnl
    exact Bool.noConfusion hnl

/-- C1 witness: in the example model, dispatching the leaf `blk.a` emits
exactly its `call_module` node and runs no real logic, while dispatching the
composite `blk` runs its logic and emits exactly the nodes of its two atomic
descendants, in order, never one for `blk` itself. -/
theorem claim1_intercepted_dispatch_witness :
    findModuleWithName exRoot 1 = some ("blk.a", exLeaf) ∧
    wrapperRun 3 exRoot [] 1 [] exSt =
      (.ok (.proxy 0), ⟨exRoot, [⟨"call_module", "blk.a", []⟩], []⟩) ∧
    (isLeaf exLeaf = true →
      ∃ nargs stm, createArgs exSt [] = (.ok nargs, stm) ∧
        (⟨exRoot, [⟨"call_module", "blk.a", []⟩], []⟩ : St) =
          ⟨stm.root, stm.nodes ++ [⟨"call_module", "blk.a", nargs⟩], stm.ran⟩ ∧
        (Value.proxy 0) = .proxy stm.nodes.length ∧
        (⟨exRoot, [⟨"call_module", "blk.a", []⟩], []⟩ : St).ran = exSt.ran ∧
        countCallModule (⟨exRoot, [⟨"call_module", "blk.a", []⟩], []⟩ : St).nodes =
          countCallModule exSt.nodes + 1) ∧
    findModuleWithName exRoot 3 = some ("blk", exBlock) ∧
    wrapperRun 5 exRoot [] 3 [] exSt =
      (.ok .vnone,
        ⟨exRoot, [⟨"call_module", "blk.a", []⟩, ⟨"call_module", "blk.b", []⟩], [3]⟩) ∧
    (isLeaf exBlock = false →
      ∃ Δ, (⟨exRoot, [⟨"call_module", "blk.a", []⟩, ⟨"call_module", "blk.b", []⟩],
          [3]⟩ : St).nodes = exSt.nodes ++ Δ ∧
        Δ.filterMap callTargetOf = specAtomicCalls 5 exRoot [] 3 ∧
        (((namedModules exRoot).map Prod.fst).Nodup →
          "blk" ∉ Δ.filterMap callTargetOf)) :=
  ⟨rfl, rfl,
    (claim1_intercepted_dispatch 2 exRoot [] 1 [] exSt "blk.a" exLeaf (.proxy 0)
      ⟨exRoot, [⟨"call_module", "blk.a", []⟩], []⟩ rfl rfl rfl).1,
    rfl, rfl,
    (claim1_intercepted_dispatch 4 exRoot [] 3 [] exSt "blk" exBlock .vnone
      ⟨exRoot, [⟨"call_module", "blk.a", []⟩, ⟨"call_module", "blk.b", []⟩], [3]⟩
      rfl rfl rfl).2⟩

end SymTrace
